import Mathlib

/-!
Verification of the CineIndex crawler and multi-format directory-page
parser (src/backend/app/media/parser.py and src/backend/app/media/crawler.py).

The HTML parsing library (BeautifulSoup) and the URL library (urllib) are
external collaborators of the code under verification: a page is modelled as
the tree of tags the parser actually inspects (`Soup`, `Table`, `Tr`,
`Cell`), and the two urllib-derived helpers `_normalize_url` (urljoin plus
fragment stripping) and `unquote` (percent decoding) are taken as function
parameters `nu` and `unq` — no claim below depends on their behaviour.
Python strings are modelled as Lean `String`s; the Python string operations
the source uses (strip, lower, upper, startswith, endswith, `in`,
comparison) are defined below on the underlying character lists, following
Python's code-point semantics.
-/

/-- Result of BeautifulSoup `img` tag lookup: `alt` attribute may be absent
(the source reads it with `img.get("alt", "")`). -/
structure ImgTag where
  alt : Option String
deriving DecidableEq

/-- Result of BeautifulSoup `a` tag lookup: `href` may be absent (read with
`a.get("href", "")`), `text` is the raw link label. -/
structure ATag where
  href : Option String
  text : String
deriving DecidableEq

/-- One `td` cell: its first `img` child (if any), its first `a` child
(if any), and its text content as returned by `get_text()` before the
`strip=True` normalisation (modelled separately by `pyStrip`). -/
structure Cell where
  img : Option ImgTag
  a : Option ATag
  text : String
deriving DecidableEq

/-- One `tr` table row: its list of `td` cells. -/
structure Tr where
  tds : List Cell
deriving DecidableEq

/-- One `table` tag: all of its `tr` rows (`find_all("tr")`), and the rows
of its `tbody` child when one is present (`table.find("tbody")`). -/
structure Table where
  rows : List Tr
  tbodyRows : Option (List Tr)
deriving DecidableEq

/-- The parts of a parsed document the dispatcher `parse_directory_page`
inspects: the `div#fallback` container (with its first inner table, if any),
the `table#example` DataTables marker table, and the first `table` of the
document. -/
structure Soup where
  fallbackTable : Option (Option Table)
  exampleTable : Option Table
  firstTable : Option Table
deriving DecidableEq

/-- `ParsedDirEntry` dataclass of parser.py. -/
structure ParsedDirEntry where
  name : String
  url : String
  modified : Option String
deriving DecidableEq

/-- `ParsedFileEntry` dataclass of parser.py. -/
structure ParsedFileEntry where
  name : String
  url : String
  modified : Option String
  size : Option String
deriving DecidableEq

/-- `ParsedPage` dataclass of parser.py. -/
structure ParsedPage where
  dir_modified : Option String
  subdirs : List ParsedDirEntry
  files : List ParsedFileEntry
deriving DecidableEq

/-- Strip leading and trailing characters satisfying `p` (Python
`str.strip` family semantics on a character list). -/
def stripList (p : Char → Bool) (l : List Char) : List Char :=
  ((l.dropWhile p).reverse.dropWhile p).reverse

/-- Python `s.strip()`: drop surrounding whitespace. -/
def pyStrip (s : String) : String :=
  String.mk (stripList Char.isWhitespace s.data)

/-- Python `s.upper()` (character-wise case map). -/
def pyUpper (s : String) : String :=
  String.mk (s.data.map Char.toUpper)

/-- Python `s.lower()` (character-wise case map). -/
def pyLower (s : String) : String :=
  String.mk (s.data.map Char.toLower)

/-- Python `s.startswith(p)`. -/
def strStartsWithB (s p : String) : Bool :=
  p.data.isPrefixOf s.data

/-- Python `s.endswith(suf)`. -/
def strEndsWithB (s suf : String) : Bool :=
  suf.data.isSuffixOf s.data

/-- Contiguous substring test on character lists, Python `needle in hay`. -/
def infixB (needle : List Char) : List Char → Bool
  | [] => needle.isEmpty
  | c :: cs => needle.isPrefixOf (c :: cs) || infixB needle cs

/-- Python `sub in s` for strings. -/
def strContainsB (s sub : String) : Bool :=
  infixB sub.data s.data

/-- Python `x or None` on an (already stripped) string: empty becomes
absent. -/
def emptyToNone (s : String) : Option String :=
  if s.data = [] then none else some s

/-- The value the source reads from a cell with
`td.get_text(strip=True) or None`. -/
def cellVal (c : Cell) : Option String :=
  emptyToNone (pyStrip c.text)

/-- Strict lexicographic comparison of character lists by code point:
Python string `<`. -/
def lexLtB : List Char → List Char → Bool
  | [], [] => false
  | [], _ :: _ => true
  | _ :: _, [] => false
  | a :: as, b :: bs =>
    if a.toNat < b.toNat then true
    else if b.toNat < a.toNat then false
    else lexLtB as bs

/-- Reflexive lexicographic comparison of character lists by code point:
Python string `<=`. -/
def lexLeB : List Char → List Char → Bool
  | [], _ => true
  | _ :: _, [] => false
  | a :: as, b :: bs =>
    if a.toNat < b.toNat then true
    else if b.toNat < a.toNat then false
    else lexLeB as bs

/-- Python `s < t` on strings. -/
def strLtB (s t : String) : Bool :=
  lexLtB s.data t.data

/-- Python `s <= t` on strings. -/
def strLeB (s t : String) : Bool :=
  lexLeB s.data t.data

/-- Python `max(times) if times else None`: the running maximum under
plain (lexicographic) string comparison, absent on the empty list. -/
def pyMaxList : List String → Option String
  | [] => none
  | x :: xs => some (xs.foldl (fun acc y => if strLtB acc y then y else acc) x)

/-- A row's contribution: a directory entry or a file entry. -/
inductive RowOut
  | dir (e : ParsedDirEntry)
  | file (e : ParsedFileEntry)
deriving DecidableEq

/-- The directory entry of a row contribution, if it is one. -/
def dirEntryOf : RowOut → Option ParsedDirEntry
  | RowOut.dir e => some e
  | RowOut.file _ => none

/-- The file entry of a row contribution, if it is one. -/
def fileEntryOf : RowOut → Option ParsedFileEntry
  | RowOut.dir _ => none
  | RowOut.file e => some e

section Parser

variable (nu : String → String → String) (unq : String → String)

/-- One loop iteration of `_parse_generic_table` on a row: `none` when the
row is skipped (fewer than 2 cells, no link, or the parent-directory
guard `alt.upper().startswith("[PARENTDIR]") or href in ("../", "..")`);
otherwise the classified entry together with the `modified` string the
loop appends to `times`. -/
def genericRowAll (base : String) (tr : Tr) : Option (RowOut × Option String) :=
  match tr.tds with
  | td0 :: td1 :: rest =>
    let alt := match td0.img with
      | some i => i.alt.getD ""
      | none => ""
    match td1.a with
    | none => none
    | some a =>
      let href := a.href.getD ""
      let label := pyStrip a.text
      if strStartsWithB (pyUpper alt) "[PARENTDIR]" || href = "../" || href = ".." then
        none
      else
        let modified := (rest.get? 0).bind cellVal
        let size := (rest.get? 1).bind cellVal
        let url := nu base href
        let decodedName := unq label
        let isDir := strEndsWithB href "/" || strContainsB (pyUpper alt) "[DIR]"
          || strContainsB (pyLower alt) "folder"
        if isDir then
          some (RowOut.dir ⟨decodedName, url, modified⟩, modified)
        else
          some (RowOut.file ⟨decodedName, url, modified, size⟩, modified)
  | _ => none

/-- One loop iteration of `_parse_h5ai_fallback` on a row: `none` when the
row is skipped (fewer than 4 cells, no link, or the guard
`href == ".." or "Parent Directory" in label`). -/
def h5aiRowAll (base : String) (tr : Tr) : Option (RowOut × Option String) :=
  match tr.tds with
  | td0 :: td1 :: td2 :: td3 :: _ =>
    match td1.a with
    | none => none
    | some a =>
      let href := a.href.getD ""
      let label := pyStrip a.text
      if href = ".." || strContainsB label "Parent Directory" then
        none
      else
        let modified := cellVal td2
        let size := cellVal td3
        let alt := match td0.img with
          | some i => i.alt.getD ""
          | none => ""
        let url := nu base href
        let decodedName := unq label
        let isDir := strEndsWithB href "/" || strContainsB (pyLower alt) "folder"
        if isDir then
          some (RowOut.dir ⟨decodedName, url, modified⟩, modified)
        else
          some (RowOut.file ⟨decodedName, url, modified, size⟩, modified)
  | _ => none

/-- One loop iteration of `_parse_discovery_datatable` on a row: `none`
when the row is skipped (fewer than 2 cells, no link, or the guard
`href in ("..", "../") or "Parent Directory" in label`). A row is a
directory only when its href ends in `/` and its size cell is
empty/absent. -/
def dtRowAll (base : String) (tr : Tr) : Option (RowOut × Option String) :=
  match tr.tds with
  | _ :: td1 :: rest =>
    match td1.a with
    | none => none
    | some a =>
      let href := a.href.getD ""
      let label := pyStrip a.text
      if href = ".." || href = "../" || strContainsB label "Parent Directory" then
        none
      else
        let size := (rest.get? 1).bind cellVal
        let modified := (rest.get? 2).bind cellVal
        let url := nu base href
        let decodedName := unq label
        let isDir := strEndsWithB href "/" &&
          (match size with | none => true | some s => s = "")
        if isDir then
          some (RowOut.dir ⟨decodedName, url, modified⟩, modified)
        else
          some (RowOut.file ⟨decodedName, url, modified, size⟩, modified)
  | _ => none

/-- Prepend an optional collected `modified` string to the `times`
accumulator. -/
def consOpt : Option String → List String → List String
  | none, l => l
  | some m, l => m :: l

/-- The accumulation all three parser loops share: walk the rows in order,
appending each accepted row's entry to `subdirs` or `files` and its
non-empty `modified` string to `times`. -/
def pageOfRows (rowFn : Tr → Option (RowOut × Option String)) :
    List Tr → List ParsedDirEntry × List ParsedFileEntry × List String
  | [] => ([], [], [])
  | tr :: rest =>
    let acc := pageOfRows rowFn rest
    match rowFn tr with
    | none => acc
    | some (RowOut.dir e, m) => (e :: acc.1, acc.2.1, consOpt m acc.2.2)
    | some (RowOut.file e, m) => (acc.1, e :: acc.2.1, consOpt m acc.2.2)

/-- Package accumulated entries as the `ParsedPage` the source returns:
`dir_modified = max(times) if times else None`. -/
def mkPage (acc : List ParsedDirEntry × List ParsedFileEntry × List String) :
    ParsedPage :=
  ⟨pyMaxList acc.2.2, acc.1, acc.2.1⟩

/-- Row loop of `_parse_generic_table`. -/
def parseGenericRows (base : String) (rows : List Tr) : ParsedPage :=
  mkPage (pageOfRows (genericRowAll nu unq base) rows)

/-- Row loop of `_parse_h5ai_fallback`. -/
def parseH5aiRows (base : String) (rows : List Tr) : ParsedPage :=
  mkPage (pageOfRows (h5aiRowAll nu unq base) rows)

/-- Row loop of `_parse_discovery_datatable`. -/
def parseDtRows (base : String) (rows : List Tr) : ParsedPage :=
  mkPage (pageOfRows (dtRowAll nu unq base) rows)

/-- `parse_directory_page`: dispatch on the detected page structure.
The h5ai branch re-finds the `div#fallback` container and parses its first
inner table (empty result when the container has no table); the DataTables
branch parses `table#example`, iterating the rows of its `tbody` when one
exists and of the table itself otherwise; the generic branch parses the
first table of the document (empty result when there is none). -/
def parseDirectoryPage (soup : Soup) (baseUrl : String) : ParsedPage :=
  match soup.fallbackTable with
  | some tbl? =>
    match tbl? with
    | none => ⟨none, [], []⟩
    | some t => parseH5aiRows nu unq baseUrl t.rows
  | none =>
    match soup.exampleTable with
    | some t => parseDtRows nu unq baseUrl (t.tbodyRows.getD t.rows)
    | none =>
      match soup.firstTable with
      | none => ⟨none, [], []⟩
      | some t => parseGenericRows nu unq baseUrl t.rows

end Parser

/-- `CrawlConfig` dataclass of crawler.py: lowercase video extensions and
lowercase blocked directory names (as produced by `load_crawl_config`). -/
structure CrawlConfig where
  videoExts : List String
  blockedDirs : List String
deriving DecidableEq

/-- Drop trailing slash characters: Python `s.rstrip("/")` on a character
list. -/
def rstripSlash (l : List Char) : List Char :=
  (l.reverse.dropWhile (fun c => c = '/')).reverse

/-- `normalize_root_url`: ensure the root URL ends with exactly one
trailing slash run boundary, `url.rstrip("/") + "/"`. -/
def normalizeRootUrl (url : String) : String :=
  String.mk (rstripSlash url.data ++ ['/'])

/-- `_path_from_root`: strip the normalized root prefix from the directory
URL; `/` when the directory URL does not start with the root prefix. -/
def pathFromRoot (rootUrl dirUrl : String) : String :=
  let r := (normalizeRootUrl rootUrl).data
  if r.isPrefixOf dirUrl.data then
    String.mk ('/' :: rstripSlash (dirUrl.data.drop r.length))
  else
    String.mk ['/']

/-- `_is_blocked_dir`: the final segment of
`path.strip("/").split("/")`, lowercased, is among the blocked names
(and the blocked list is non-empty). -/
def isBlockedDir (path : String) (cfg : CrawlConfig) : Bool :=
  if cfg.blockedDirs = [] then false
  else
    let last := (List.splitOn '/' (stripList (fun c => c = '/') path.data)).getLastD []
    cfg.blockedDirs.contains (String.mk (last.map Char.toLower))

/-- Index of the last occurrence of `c` in `l`: Python `s.rfind(c)`,
`none` for `-1`. -/
def pyRfind (c : Char) : List Char → Option Nat
  | [] => none
  | x :: xs =>
    match pyRfind c xs with
    | some i => some (i + 1)
    | none => if x = c then some 0 else none

/-- `_should_keep_file`: keep everything when the extension list is empty,
otherwise look up the lowercased suffix after the final dot
(`lower[dot + 1 :]` with `dot = lower.rfind(".")`); no dot means drop. -/
def shouldKeepFile (filename : String) (cfg : CrawlConfig) : Bool :=
  if cfg.videoExts = [] then true
  else
    let lower := (pyLower filename).data
    match pyRfind '.' lower with
    | none => false
    | some dot => cfg.videoExts.contains (String.mk (lower.drop (dot + 1)))

/-- The characters after the last slash of `l` (the whole list when there
is no slash): Python `s.rsplit("/", 1)[-1]`. -/
def afterLastSlash (l : List Char) : List Char :=
  (l.reverse.takeWhile (fun c => c ≠ '/')).reverse

/-- The `name` column the crawler stores for a directory row:
`rel_path.rsplit("/", 1)[-1] if rel_path != "/" else ""`. -/
def dirRowName (relPath : String) : String :=
  if relPath = "/" then "" else String.mk (afterLastSlash relPath.data)

/-- One store or transport operation the crawler performs, in the order it
performs them. `fetchAttempt` records a call of `_fetch_page`; the rest
are the SQL statements of `crawl_root`. -/
inductive Ev
  | deleteMediaRoot (root : String)
  | deleteDirsRoot (root : String)
  | fetchAttempt (url : String)
  | upsertDir (url root : String) (parent : Option String) (name : String)
      (modified : Option String)
  | deleteMediaRootPath (root path : String)
  | upsertMedia (url root path filename : String) (modified size : Option String)
  | commit
deriving DecidableEq

/-- Crawler state: the work queue of `(directory URL, parent URL)` pairs,
the `dirs` store table restricted to the columns the crawler reads back
(`url ↦ modified`), the ordered trace of operations performed so far, and
the processed-directory counter driving the every-20 commit. -/
structure CrawlState where
  queue : List (String × Option String)
  dirs : List (String × Option String)
  trace : List Ev
  processed : Nat
deriving DecidableEq

/-- `SELECT modified FROM dirs WHERE url = ?`: `none` when no row exists,
otherwise the row's (possibly NULL) modified value. -/
def lookupDirModified (dirs : List (String × Option String)) (url : String) :
    Option (Option String) :=
  (dirs.find? (fun p => p.1 == url)).map (fun p => p.2)

/-- Upsert keyed on `url` into the modelled `dirs` table. -/
def upsertDirRow (dirs : List (String × Option String)) (url : String)
    (m : Option String) : List (String × Option String) :=
  if dirs.any (fun p => p.1 == url) then
    dirs.map (fun p => if p.1 == url then (url, m) else p)
  else
    dirs ++ [(url, m)]

section Crawler

variable (nu : String → String → String) (unq : String → String)
variable (fetch : String → Option Soup)

/-- One iteration of the `while queue` loop of `crawl_root`, dequeuing the
head item: blocked-directory discard (before fetching), fetch (failure
discards the item), parse, the incremental skip check (stored row exists
and its modified value equals the parsed token), then the Directory
upsert, the per-path media delete, the filtered media inserts, the subdir
enqueues and the every-20-directories commit. `fetch` returns the parsed
document of a fetched page, or `none` for a fetch failure. -/
def crawlStep (rootUrl : String) (cfg : CrawlConfig) (incremental : Bool)
    (st : CrawlState) : CrawlState :=
  match st.queue with
  | [] => st
  | (dirUrl, parentUrl) :: rest =>
    let relPath := pathFromRoot rootUrl dirUrl
    if isBlockedDir relPath cfg then
      { st with queue := rest }
    else
      match fetch dirUrl with
      | none => { st with queue := rest, trace := st.trace ++ [Ev.fetchAttempt dirUrl] }
      | some soup =>
        let parsed := parseDirectoryPage nu unq soup dirUrl
        let trace1 := st.trace ++ [Ev.fetchAttempt dirUrl]
        let skip := incremental &&
          (match lookupDirModified st.dirs dirUrl with
           | none => false
           | some stored => stored == parsed.dir_modified)
        if skip then
          { st with queue := rest, trace := trace1 }
        else
          let keptOps := (parsed.files.filter (fun f => shouldKeepFile f.name cfg)).map
            (fun f => Ev.upsertMedia f.url rootUrl relPath f.name f.modified f.size)
          let processed1 := st.processed + 1
          { queue := rest ++ parsed.subdirs.map (fun d => (d.url, some dirUrl)),
            dirs := upsertDirRow st.dirs dirUrl parsed.dir_modified,
            trace := trace1 ++
              [Ev.upsertDir dirUrl rootUrl parentUrl (dirRowName relPath)
                 parsed.dir_modified,
               Ev.deleteMediaRootPath rootUrl relPath] ++ keptOps ++
              (if processed1 % 20 = 0 then [Ev.commit] else []),
            processed := processed1 }

/-- The `while queue` loop, fuel-bounded (the source has no cycle guard,
so the loop need not terminate; `fuel` bounds the iterations modelled). -/
def crawlLoop (rootUrl : String) (cfg : CrawlConfig) (incremental : Bool) :
    Nat → CrawlState → CrawlState
  | 0, st => st
  | Nat.succ n, st =>
    match st.queue with
    | [] => st
    | _ :: _ =>
      crawlLoop rootUrl cfg incremental n
        (crawlStep nu unq fetch rootUrl cfg incremental st)

/-- The crawl state `crawl_root` sets up before entering its loop: the
queue seeded with the root, the pre-existing `dirs` store contents, and —
only in full (non-incremental) mode — the bulk deletion of the root's
media and directory rows followed by a commit. -/
def initialState (rootUrl : String) (incremental : Bool)
    (dirs0 : List (String × Option String)) : CrawlState :=
  { queue := [(rootUrl, none)],
    dirs := dirs0,
    trace := if incremental then [] else
      [Ev.deleteMediaRoot rootUrl, Ev.deleteDirsRoot rootUrl, Ev.commit],
    processed := 0 }

/-- `crawl_root`: the initial bulk-delete phase (full mode only), the
fuel-bounded traversal loop, and the final commit after the loop. -/
def crawlRoot (fuel : Nat) (rootUrl : String) (cfg : CrawlConfig)
    (incremental : Bool) (dirs0 : List (String × Option String)) : CrawlState :=
  let st := crawlLoop nu unq fetch rootUrl cfg incremental fuel
    (initialState rootUrl incremental dirs0)
  { st with trace := st.trace ++ [Ev.commit] }

end Crawler

/-- The icon alt text a parser row reads from the first cell (empty when
the cell or its `img`/`alt` is absent). -/
def rowAlt0 (tr : Tr) : String :=
  match tr.tds with
  | td0 :: _ =>
    match td0.img with
    | some i => i.alt.getD ""
    | none => ""
  | [] => ""

/-- The link target a parser row reads from the second cell (empty when
the cell, its link, or the `href` attribute is absent). -/
def rowHref (tr : Tr) : String :=
  match tr.tds with
  | _ :: td1 :: _ =>
    match td1.a with
    | some a => a.href.getD ""
    | none => ""
  | _ => ""

/-- The stripped link label a parser row reads from the second cell. -/
def rowLabel (tr : Tr) : String :=
  match tr.tds with
  | _ :: td1 :: _ =>
    match td1.a with
    | some a => pyStrip a.text
    | none => ""
  | _ => ""

/-- The size value the DataTables row loop reads (cell index 3). -/
def dtRowSize (tr : Tr) : Option String :=
  match tr.tds with
  | _ :: _ :: rest => (rest.get? 1).bind cellVal
  | _ => none

/-- The parent-directory markers the generic variant checks: icon alt
starting with `[PARENTDIR]` after uppercasing, or href `../` or `..`. -/
def markerGeneric (tr : Tr) : Bool :=
  strStartsWithB (pyUpper (rowAlt0 tr)) "[PARENTDIR]" || rowHref tr = "../"
    || rowHref tr = ".."

/-- The parent-directory markers the h5ai variant checks: href `..` or
label containing `Parent Directory`. -/
def markerH5ai (tr : Tr) : Bool :=
  rowHref tr = ".." || strContainsB (rowLabel tr) "Parent Directory"

/-- The parent-directory markers the DataTables variant checks: href `..`
or `../`, or label containing `Parent Directory`. -/
def markerDt (tr : Tr) : Bool :=
  rowHref tr = ".." || rowHref tr = "../" || strContainsB (rowLabel tr) "Parent Directory"

/-- The non-empty modified strings collected from the rows a variant's row
function accepts, in page order. -/
def collectedTimes (f : Tr → Option (RowOut × Option String)) (rows : List Tr) :
    List String :=
  rows.filterMap (fun tr => (f tr).bind (fun x => x.2))

/-- The characters after the last `.` of `l`, absent when `l` has no `.`:
the suffix the extension filter is specified to test. -/
def extAfterLastDot : List Char → Option (List Char)
  | [] => none
  | c :: cs =>
    match extAfterLastDot cs with
    | some e => some e
    | none => if c = '.' then some cs else none

/-- The extension filter as the spec words it: keep when the extension
list is empty, or when the lowercase suffix after the final `.` of the
filename is in the list; a filename with no `.` is dropped whenever the
list is non-empty. -/
def keepSpecB (filename : String) (exts : List String) : Bool :=
  exts.isEmpty ||
    (match extAfterLastDot (pyLower filename).data with
     | none => false
     | some e => exts.contains (String.mk e))

/-- Concrete href resolver used to instantiate the external URL
normalisation in witnesses: keeps the href as given. -/
def nuId : String → String → String := fun _ href => href

/-- Concrete percent decoder used to instantiate the external decoder in
witnesses: the identity. -/
def unqId : String → String := fun s => s

/-- A cell holding only a link. -/
def cellOfLink (href label : String) : Cell :=
  ⟨none, some ⟨some href, label⟩, ""⟩

/-- A cell holding only text. -/
def cellOfText (t : String) : Cell :=
  ⟨none, none, t⟩

/-- An empty cell. -/
def cellEmpty : Cell :=
  ⟨none, none, ""⟩

theorem mkPage_subdirs (acc : List ParsedDirEntry × List ParsedFileEntry × List String) :
    (mkPage acc).subdirs = acc.1 := rfl

theorem mkPage_files (acc : List ParsedDirEntry × List ParsedFileEntry × List String) :
    (mkPage acc).files = acc.2.1 := rfl

theorem mkPage_dir_modified (acc : List ParsedDirEntry × List ParsedFileEntry × List String) :
    (mkPage acc).dir_modified = pyMaxList acc.2.2 := rfl

theorem pageOfRows_subdirs (f : Tr → Option (RowOut × Option String)) (rows : List Tr) :
    (pageOfRows f rows).1
      = rows.filterMap (fun tr => (f tr).bind (fun x => dirEntryOf x.1)) := by
  induction rows with
  | nil => rfl
  | cons tr rest ih =>
    simp only [pageOfRows, List.filterMap_cons]
    cases h : f tr with
    | none => simpa using ih
    | some x =>
      rcases x with ⟨out, m⟩
      cases out with
      | dir e => simp [dirEntryOf, ih]
      | file e => simp [dirEntryOf, ih]

theorem pageOfRows_files (f : Tr → Option (RowOut × Option String)) (rows : List Tr) :
    (pageOfRows f rows).2.1
      = rows.filterMap (fun tr => (f tr).bind (fun x => fileEntryOf x.1)) := by
  induction rows with
  | nil => rfl
  | cons tr rest ih =>
    simp only [pageOfRows, List.filterMap_cons]
    cases h : f tr with
    | none => simpa using ih
    | some x =>
      rcases x with ⟨out, m⟩
      cases out with
      | dir e => simp [fileEntryOf, ih]
      | file e => simp [fileEntryOf, ih]

theorem pageOfRows_times (f : Tr → Option (RowOut × Option String)) (rows : List Tr) :
    (pageOfRows f rows).2.2 = collectedTimes f rows := by
  induction rows with
  | nil => rfl
  | cons tr rest ih =>
    simp only [pageOfRows, collectedTimes, List.filterMap_cons] at *
    cases h : f tr with
    | none => simpa using ih
    | some x =>
      rcases x with ⟨out, m⟩
      cases out with
      | dir e => cases m with
        | none => simp [consOpt, ih]
        | some s => simp [consOpt, ih]
      | file e => cases m with
        | none => simp [consOpt, ih]
        | some s => simp [consOpt, ih]

theorem lexLeB_refl (l : List Char) : lexLeB l l = true := by
  induction l with
  | nil => rfl
  | cons a as ih => simp [lexLeB, Nat.lt_irrefl, ih]

theorem lexLtB_eq_not_lexLeB (a b : List Char) : lexLtB a b = !lexLeB b a := by
  induction a generalizing b with
  | nil => cases b <;> rfl
  | cons x xs ih =>
    cases b with
    | nil => rfl
    | cons y ys =>
      simp only [lexLtB, lexLeB]
      rcases Nat.lt_trichotomy x.toNat y.toNat with h | h | h
      · simp [h, Nat.lt_asymm h]
      · simp [h, Nat.lt_irrefl, ih ys]
      · simp [h, Nat.lt_asymm h]

theorem lexLeB_trans (a b c : List Char) (hab : lexLeB a b = true)
    (hbc : lexLeB b c = true) : lexLeB a c = true := by
  induction a generalizing b c with
  | nil => rfl
  | cons x xs ih =>
    cases b with
    | nil => simp [lexLeB] at hab
    | cons y ys =>
      cases c with
      | nil => simp [lexLeB] at hbc
      | cons z zs =>
        simp only [lexLeB] at hab hbc ⊢
        rcases Nat.lt_trichotomy x.toNat y.toNat with h1 | h1 | h1
        · rcases Nat.lt_trichotomy y.toNat z.toNat with h2 | h2 | h2
          · simp [Nat.lt_trans h1 h2]
          · simp [h2 ▸ h1]
          · simp [h2, Nat.lt_asymm h2] at hbc
        · rcases Nat.lt_trichotomy y.toNat z.toNat with h2 | h2 | h2
          · simp [h1 ▸ h2]
          · simp [h1, h2, Nat.lt_irrefl] at hab hbc ⊢
            exact ih ys zs hab hbc
          · simp [h2, Nat.lt_asymm h2] at hbc
        · simp [h1, Nat.lt_asymm h1] at hab

theorem lexLeB_total (a b : List Char) :
    lexLeB a b = true ∨ lexLeB b a = true := by
  induction a generalizing b with
  | nil => left; rfl
  | cons x xs ih =>
    cases b with
    | nil => right; rfl
    | cons y ys =>
      simp only [lexLeB]
      rcases Nat.lt_trichotomy x.toNat y.toNat with h | h | h
      · left; simp [h]
      · rcases ih ys with h' | h'
        · left; simp [h, Nat.lt_irrefl, h']
        · right; simp [h, Nat.lt_irrefl, h']
      · right; simp [h, Nat.lt_asymm h]

theorem strLeB_refl (s : String) : strLeB s s = true := lexLeB_refl s.data

theorem strLeB_trans (a b c : String) (hab : strLeB a b = true)
    (hbc : strLeB b c = true) : strLeB a c = true :=
  lexLeB_trans a.data b.data c.data hab hbc

theorem strLeB_of_strLtB (a b : String) (h : strLtB a b = true) :
    strLeB a b = true := by
  have h' : lexLtB a.data b.data = true := h
  have hn := lexLtB_eq_not_lexLeB a.data b.data
  rw [h'] at hn
  rcases lexLeB_total a.data b.data with hle | hle
  · exact hle
  · rw [hle] at hn; simp at hn

theorem strLeB_of_not_strLtB (a b : String) (h : strLtB a b = false) :
    strLeB b a = true := by
  have h' : lexLtB a.data b.data = false := h
  have hn := lexLtB_eq_not_lexLeB a.data b.data
  rw [h'] at hn
  have hd : lexLeB b.data a.data = true := by simpa using hn.symm
  exact hd

theorem foldlMax_mem (xs : List String) :
    ∀ x, xs.foldl (fun acc y => if strLtB acc y then y else acc) x ∈ x :: xs := by
  induction xs with
  | nil => intro x; simp
  | cons y ys ih =>
    intro x
    simp only [List.foldl]
    by_cases hxy : strLtB x y = true
    · rcases List.mem_cons.mp (ih y) with h | h
      · simp [hxy, h]
      · simp [hxy, h]
    · have hxy' : strLtB x y = false := by simpa using hxy
      rcases List.mem_cons.mp (ih x) with h | h
      · simp [hxy', h]
      · simp [hxy', h]

theorem foldlMax_ge (xs : List String) :
    ∀ x t, t ∈ x :: xs →
      strLeB t (xs.foldl (fun acc y => if strLtB acc y then y else acc) x) = true := by
  induction xs with
  | nil =>
    intro x t ht
    simp at ht
    rw [ht]
    exact strLeB_refl x
  | cons y ys ih =>
    intro x t ht
    simp only [List.foldl]
    have hx : strLeB x (if strLtB x y then y else x) = true := by
      by_cases hxy : strLtB x y
      · simpa [hxy] using strLeB_of_strLtB x y hxy
      · simp [hxy, strLeB_refl]
    have hy : strLeB y (if strLtB x y then y else x) = true := by
      by_cases hxy : strLtB x y
      · simp [hxy, strLeB_refl]
      · have : strLtB x y = false := by simpa using hxy
        simpa [hxy] using strLeB_of_not_strLtB x y this
    have hhead := ih (if strLtB x y then y else x)
      (if strLtB x y then y else x) (List.mem_cons_self _ _)
    rcases List.mem_cons.mp ht with h | h
    · rw [h]
      exact strLeB_trans _ _ _ hx hhead
    · rcases List.mem_cons.mp h with h' | h'
      · rw [h']
        exact strLeB_trans _ _ _ hy hhead
      · exact ih _ t (List.mem_cons_of_mem _ h')

theorem pyMaxList_none_iff (l : List String) : pyMaxList l = none ↔ l = [] := by
  cases l <;> simp [pyMaxList]

theorem pyMaxList_mem (l : List String) (m : String) (h : pyMaxList l = some m) :
    m ∈ l := by
  cases l with
  | nil => simp [pyMaxList] at h
  | cons x xs =>
    simp only [pyMaxList, Option.some_inj] at h
    rw [← h]
    exact foldlMax_mem xs x

theorem pyMaxList_ge (l : List String) (m : String) (h : pyMaxList l = some m) :
    ∀ t ∈ l, strLeB t m = true := by
  cases l with
  | nil => simp [pyMaxList] at h
  | cons x xs =>
    simp only [pyMaxList, Option.some_inj] at h
    rw [← h]
    exact fun t ht => foldlMax_ge xs x t ht

theorem rfindDrop_eq_extAfterLastDot (l : List Char) :
    (match pyRfind '.' l with
     | none => (none : Option (List Char))
     | some i => some (l.drop (i + 1))) = extAfterLastDot l := by
  induction l with
  | nil => rfl
  | cons c cs ih =>
    cases h : pyRfind '.' cs with
    | none =>
      simp only [h] at ih
      by_cases hc : c = '.'
      · simp [pyRfind, extAfterLastDot, h, hc, ← ih]
      · simp [pyRfind, extAfterLastDot, h, hc, ← ih]
    | some i =>
      simp only [h] at ih
      simp [pyRfind, extAfterLastDot, h, ← ih]

theorem shouldKeepFile_eq_spec (filename : String) (cfg : CrawlConfig) :
    shouldKeepFile filename cfg = keepSpecB filename cfg.videoExts := by
  unfold shouldKeepFile keepSpecB
  by_cases h : cfg.videoExts = []
  · simp [h]
  · have hie : cfg.videoExts.isEmpty = false := by
      cases hv : cfg.videoExts with
      | nil => exact absurd hv h
      | cons a as => rfl
    simp only [h, if_false, hie, Bool.false_or]
    rw [← rfindDrop_eq_extAfterLastDot (pyLower filename).data]
    cases hr : pyRfind '.' (pyLower filename).data with
    | none => simp [hr]
    | some dot => simp [hr]

theorem genericRowAll_of_marker (nu : String → String → String)
    (unq : String → String) (b : String) (tr : Tr)
    (h : markerGeneric tr = true) : genericRowAll nu unq b tr = none := by
  obtain ⟨tds⟩ := tr
  rcases tds with _ | ⟨td0, _ | ⟨td1, rest⟩⟩
  · rfl
  · rfl
  · cases ha : td1.a with
    | none => simp [genericRowAll, ha]
    | some a =>
      simp only [markerGeneric, rowAlt0, rowHref, ha] at h
      simp [genericRowAll, ha, h]

theorem h5aiRowAll_of_marker (nu : String → String → String)
    (unq : String → String) (b : String) (tr : Tr)
    (h : markerH5ai tr = true) : h5aiRowAll nu unq b tr = none := by
  obtain ⟨tds⟩ := tr
  rcases tds with _ | ⟨td0, _ | ⟨td1, _ | ⟨td2, _ | ⟨td3, rest⟩⟩⟩⟩
  · rfl
  · rfl
  · rfl
  · rfl
  · cases ha : td1.a with
    | none => simp [h5aiRowAll, ha]
    | some a =>
      simp only [markerH5ai, rowHref, rowLabel, ha] at h
      simp [h5aiRowAll, ha, h]

theorem dtRowAll_of_marker (nu : String → String → String)
    (unq : String → String) (b : String) (tr : Tr)
    (h : markerDt tr = true) : dtRowAll nu unq b tr = none := by
  obtain ⟨tds⟩ := tr
  rcases tds with _ | ⟨td0, _ | ⟨td1, rest⟩⟩
  · rfl
  · rfl
  · cases ha : td1.a with
    | none => simp [dtRowAll, ha]
    | some a =>
      simp only [markerDt, rowHref, rowLabel, ha] at h
      simp [dtRowAll, ha, h]

theorem pageOfRows_filter_none (f : Tr → Option (RowOut × Option String))
    (p : Tr → Bool) (hp : ∀ tr, p tr = true → f tr = none) (rows : List Tr) :
    pageOfRows f (rows.filter (fun tr => !p tr)) = pageOfRows f rows := by
  induction rows with
  | nil => rfl
  | cons tr rest ih =>
    by_cases h : p tr = true
    · have hf : List.filter (fun x => !p x) (tr :: rest)
          = List.filter (fun x => !p x) rest := by
        simp [List.filter_cons, h]
      rw [hf, ih]
      simp [pageOfRows, hp tr h]
    · have h' : p tr = false := by simpa using h
      have hf : List.filter (fun x => !p x) (tr :: rest)
          = tr :: List.filter (fun x => !p x) rest := by
        simp [List.filter_cons, h']
      rw [hf]
      simp only [pageOfRows, ih]

theorem mem_subdirs_of_rowAll (f : Tr → Option (RowOut × Option String))
    (rows : List Tr) (tr : Tr) (e : ParsedDirEntry) (m : Option String)
    (htr : tr ∈ rows) (h : f tr = some (RowOut.dir e, m)) :
    e ∈ (mkPage (pageOfRows f rows)).subdirs := by
  rw [mkPage_subdirs, pageOfRows_subdirs]
  exact List.mem_filterMap.mpr ⟨tr, htr, by rw [h]; rfl⟩

theorem mem_files_of_rowAll (f : Tr → Option (RowOut × Option String))
    (rows : List Tr) (tr : Tr) (e : ParsedFileEntry) (m : Option String)
    (htr : tr ∈ rows) (h : f tr = some (RowOut.file e, m)) :
    e ∈ (mkPage (pageOfRows f rows)).files := by
  rw [mkPage_files, pageOfRows_files]
  exact List.mem_filterMap.mpr ⟨tr, htr, by rw [h]; rfl⟩

theorem genericRowAll_slash (nu : String → String → String)
    (unq : String → String) (b : String) (tr : Tr) (out : RowOut)
    (m : Option String) (h : genericRowAll nu unq b tr = some (out, m))
    (hs : strEndsWithB (rowHref tr) "/" = true) : ∃ e, out = RowOut.dir e := by
  obtain ⟨tds⟩ := tr
  rcases tds with _ | ⟨td0, _ | ⟨td1, rest⟩⟩
  · simp [genericRowAll] at h
  · simp [genericRowAll] at h
  · cases ha : td1.a with
    | none => simp [genericRowAll, ha] at h
    | some a =>
      simp only [rowHref, ha] at hs
      simp only [genericRowAll, ha] at h
      split at h
      · simp at h
      · split at h
        · exact ⟨_, (congrArg Prod.fst (Option.some.inj h)).symm⟩
        · next hniso => exact absurd (by simp [hs]) hniso

theorem h5aiRowAll_slash (nu : String → String → String)
    (unq : String → String) (b : String) (tr : Tr) (out : RowOut)
    (m : Option String) (h : h5aiRowAll nu unq b tr = some (out, m))
    (hs : strEndsWithB (rowHref tr) "/" = true) : ∃ e, out = RowOut.dir e := by
  obtain ⟨tds⟩ := tr
  rcases tds with _ | ⟨td0, _ | ⟨td1, _ | ⟨td2, _ | ⟨td3, rest⟩⟩⟩⟩
  · simp [h5aiRowAll] at h
  · simp [h5aiRowAll] at h
  · simp [h5aiRowAll] at h
  · simp [h5aiRowAll] at h
  · cases ha : td1.a with
    | none => simp [h5aiRowAll, ha] at h
    | some a =>
      simp only [rowHref, ha] at hs
      simp only [h5aiRowAll, ha] at h
      split at h
      · simp at h
      · split at h
        · exact ⟨_, (congrArg Prod.fst (Option.some.inj h)).symm⟩
        · next hniso => exact absurd (by simp [hs]) hniso

theorem dtRowAll_slash (nu : String → String → String)
    (unq : String → String) (b : String) (tr : Tr) (out : RowOut)
    (m : Option String) (h : dtRowAll nu unq b tr = some (out, m))
    (hs : strEndsWithB (rowHref tr) "/" = true) :
    (dtRowSize tr = none → ∃ e, out = RowOut.dir e) ∧
    (∀ s, dtRowSize tr = some s → s ≠ "" → ∃ e, out = RowOut.file e) := by
  obtain ⟨tds⟩ := tr
  rcases tds with _ | ⟨td0, _ | ⟨td1, rest⟩⟩
  · simp [dtRowAll] at h
  · simp [dtRowAll] at h
  · cases ha : td1.a with
    | none => simp [dtRowAll, ha] at h
    | some a =>
      simp only [rowHref, ha] at hs
      simp only [dtRowAll, ha] at h
      simp only [dtRowSize]
      split at h
      · simp at h
      · simp only [hs, Bool.true_and] at h
        cases hsz : (rest.get? 1).bind cellVal with
        | none =>
          refine ⟨fun _ => ?_, fun s hs' _ => ?_⟩
          · simp only [hsz] at h
            simp at h
            exact ⟨_, h.1.symm⟩
          · exact absurd hs' (by simp)
        | some s0 =>
          refine ⟨fun hnone => ?_, fun s hs' hne => ?_⟩
          · simp at hnone
          · have hss : s0 = s := Option.some.inj hs'
            simp only [hsz] at h
            rw [if_neg (by simp [hss, hne])] at h
            exact ⟨_, (congrArg Prod.fst (Option.some.inj h)).symm⟩

theorem crawlStep_skip_of_stored_eq (nu : String → String → String)
    (unq : String → String) (fetch : String → Option Soup) (rootUrl : String)
    (cfg : CrawlConfig) (st : CrawlState) (dirUrl : String)
    (parentUrl : Option String) (rest : List (String × Option String))
    (soup : Soup) (hq : st.queue = (dirUrl, parentUrl) :: rest)
    (hb : isBlockedDir (pathFromRoot rootUrl dirUrl) cfg = false)
    (hf : fetch dirUrl = some soup)
    (hstored : lookupDirModified st.dirs dirUrl =
      some (parseDirectoryPage nu unq soup dirUrl).dir_modified) :
    crawlStep nu unq fetch rootUrl cfg true st =
      { st with queue := rest, trace := st.trace ++ [Ev.fetchAttempt dirUrl] } := by
  simp only [crawlStep, hq, hb, hf, hstored]
  simp

theorem crawlStep_blocked (nu : String → String → String)
    (unq : String → String) (fetch : String → Option Soup) (rootUrl : String)
    (cfg : CrawlConfig) (incremental : Bool) (st : CrawlState) (dirUrl : String)
    (parentUrl : Option String) (rest : List (String × Option String))
    (hq : st.queue = (dirUrl, parentUrl) :: rest)
    (hb : isBlockedDir (pathFromRoot rootUrl dirUrl) cfg = true) :
    crawlStep nu unq fetch rootUrl cfg incremental st = { st with queue := rest } := by
  simp only [crawlStep, hq, hb]
  simp


theorem crawlStep_trace_append (nu : String → String → String)
    (unq : String → String) (fetch : String → Option Soup) (rootUrl : String)
    (cfg : CrawlConfig) (incremental : Bool) (st : CrawlState) :
    ∃ t, (crawlStep nu unq fetch rootUrl cfg incremental st).trace = st.trace ++ t ∧
      ∀ e ∈ t, (∀ r, e ≠ Ev.deleteMediaRoot r) ∧ (∀ r, e ≠ Ev.deleteDirsRoot r) ∧
        ∀ u, isBlockedDir (pathFromRoot rootUrl u) cfg = true → e ≠ Ev.fetchAttempt u := by
  cases hq : st.queue with
  | nil =>
    refine ⟨[], ?_, by simp⟩
    simp [crawlStep, hq]
  | cons hd rest =>
    obtain ⟨d, p⟩ := hd
    by_cases hb : isBlockedDir (pathFromRoot rootUrl d) cfg = true
    · refine ⟨[], ?_, by simp⟩
      simp [crawlStep, hq, hb]
    · have hb' : isBlockedDir (pathFromRoot rootUrl d) cfg = false := by simpa using hb
      have hfd : ∀ u, isBlockedDir (pathFromRoot rootUrl u) cfg = true →
          Ev.fetchAttempt d ≠ Ev.fetchAttempt u := by
        intro u hu heq
        injection heq with hdu
        subst hdu
        rw [hu] at hb'
        simp at hb'
      cases hf : fetch d with
      | none =>
        refine ⟨[Ev.fetchAttempt d], ?_, ?_⟩
        · simp [crawlStep, hq, hb', hf]
        · intro e he
          rw [List.mem_singleton] at he
          subst he
          exact ⟨by simp, by simp, hfd⟩
      | some soup =>
        cases hskip : (incremental &&
            (match lookupDirModified st.dirs d with
             | none => false
             | some stored => stored == (parseDirectoryPage nu unq soup d).dir_modified)) with
        | true =>
          refine ⟨[Ev.fetchAttempt d], ?_, ?_⟩
          · simp only [crawlStep, hq, hb', hf]
            simp only [hskip]
            simp
          · intro e he
            rw [List.mem_singleton] at he
            subst he
            exact ⟨by simp, by simp, hfd⟩
        | false =>
          refine ⟨[Ev.fetchAttempt d] ++
            [Ev.upsertDir d rootUrl p (dirRowName (pathFromRoot rootUrl d))
               (parseDirectoryPage nu unq soup d).dir_modified,
             Ev.deleteMediaRootPath rootUrl (pathFromRoot rootUrl d)] ++
            (((parseDirectoryPage nu unq soup d).files.filter
                (fun f => shouldKeepFile f.name cfg)).map
              (fun f => Ev.upsertMedia f.url rootUrl (pathFromRoot rootUrl d)
                f.name f.modified f.size)) ++
            (if (st.processed + 1) % 20 = 0 then [Ev.commit] else []), ?_, ?_⟩
          · simp only [crawlStep, hq, hb', hf]
            simp only [hskip]
            simp [List.append_assoc]
          · refine List.forall_mem_append.mpr ⟨List.forall_mem_append.mpr
              ⟨List.forall_mem_append.mpr ⟨?_, ?_⟩, ?_⟩, ?_⟩
            · intro e he
              rw [List.mem_singleton] at he
              subst he
              exact ⟨by simp, by simp, hfd⟩
            · intro e he
              simp only [List.mem_cons, List.mem_singleton, List.not_mem_nil,
                or_false] at he
              rcases he with rfl | rfl
              · exact ⟨by simp, by simp, by intro u _; simp⟩
              · exact ⟨by simp, by simp, by intro u _; simp⟩
            · intro e he
              obtain ⟨f, _, rfl⟩ := List.mem_map.mp he
              exact ⟨by simp, by simp, by intro u _; simp⟩
            · intro e he
              split at he
              · rw [List.mem_singleton] at he
                subst he
                exact ⟨by simp, by simp, by intro u _; simp⟩
              · simp at he

theorem crawlLoop_trace_append (nu : String → String → String)
    (unq : String → String) (fetch : String → Option Soup) (rootUrl : String)
    (cfg : CrawlConfig) (incremental : Bool) :
    ∀ fuel st, ∃ t,
      (crawlLoop nu unq fetch rootUrl cfg incremental fuel st).trace = st.trace ++ t ∧
      ∀ e ∈ t, (∀ r, e ≠ Ev.deleteMediaRoot r) ∧ (∀ r, e ≠ Ev.deleteDirsRoot r) ∧
        ∀ u, isBlockedDir (pathFromRoot rootUrl u) cfg = true → e ≠ Ev.fetchAttempt u := by
  intro fuel
  induction fuel with
  | zero => intro st; exact ⟨[], by simp [crawlLoop], by simp⟩
  | succ n ih =>
    intro st
    cases hq : st.queue with
    | nil =>
      refine ⟨[], ?_, by simp⟩
      simp [crawlLoop, hq]
    | cons hd tl =>
      obtain ⟨t1, ht1, hp1⟩ :=
        crawlStep_trace_append nu unq fetch rootUrl cfg incremental st
      obtain ⟨t2, ht2, hp2⟩ :=
        ih (crawlStep nu unq fetch rootUrl cfg incremental st)
      refine ⟨t1 ++ t2, ?_, ?_⟩
      · simp only [crawlLoop, hq]
        rw [ht2, ht1, List.append_assoc]
      · intro e he
        rcases List.mem_append.mp he with h | h
        · exact hp1 e h
        · exact hp2 e h

/-- Claim C8: the page parser is total (a Lean function here) and, for
every document with no h5ai fallback container, no DataTables marker
table and no generic table, returns the empty `ParsedPage`: no subdir
entries, no file entries, absent freshness token — not an error. -/
theorem claim_C8 (nu : String → String → String) (unq : String → String)
    (soup : Soup) (baseUrl : String)
    (h1 : soup.fallbackTable = none) (h2 : soup.exampleTable = none)
    (h3 : soup.firstTable = none) :
    parseDirectoryPage nu unq soup baseUrl = ⟨none, [], []⟩ := by
  simp [parseDirectoryPage, h1, h2, h3]

/-- Witness for C8 at a concrete unrecognizable document. -/
theorem claim_C8_witness :
    parseDirectoryPage nuId unqId ⟨none, none, none⟩ "http://example/"
      = ⟨none, [], []⟩ :=
  claim_C8 nuId unqId ⟨none, none, none⟩ "http://example/" rfl rfl rfl

/-- Claim C9: the computed root-relative path always starts with `/`; when
the directory URL starts with the trailing-slash-normalized root it is `/`
followed by the stripped remainder, and otherwise it defaults to `/`
without error. -/
theorem claim_C9 (rootUrl dirUrl : String) :
    (pathFromRoot rootUrl dirUrl).data.head? = some '/' ∧
    ((normalizeRootUrl rootUrl).data.isPrefixOf dirUrl.data = true →
      (pathFromRoot rootUrl dirUrl).data
        = '/' :: rstripSlash (dirUrl.data.drop (normalizeRootUrl rootUrl).data.length)) ∧
    ((normalizeRootUrl rootUrl).data.isPrefixOf dirUrl.data = false →
      pathFromRoot rootUrl dirUrl = "/") := by
  by_cases h : (normalizeRootUrl rootUrl).data.isPrefixOf dirUrl.data = true
  · refine ⟨?_, fun _ => ?_, fun hf => ?_⟩
    · simp [pathFromRoot, h]
    · simp [pathFromRoot, h]
    · rw [h] at hf
      exact absurd hf (by simp)
  · have h' : (normalizeRootUrl rootUrl).data.isPrefixOf dirUrl.data = false :=
      Bool.eq_false_iff.mpr h
    refine ⟨?_, fun ht => ?_, fun _ => ?_⟩
    · simp [pathFromRoot, h']
    · rw [h'] at ht
      exact absurd ht (by simp)
    · simp [pathFromRoot, h']

/-- Witness for C9: a directory under the root and one outside it. -/
theorem claim_C9_witness :
    (pathFromRoot "http://x/Movies" "http://x/Movies/A/").data
        = '/' :: rstripSlash ("http://x/Movies/A/".data.drop
            (normalizeRootUrl "http://x/Movies").data.length) ∧
    pathFromRoot "http://a/" "http://b/c" = "/" :=
  ⟨(claim_C9 "http://x/Movies" "http://x/Movies/A/").2.1 (by decide),
   (claim_C9 "http://a/" "http://b/c").2.2 (by decide)⟩

/-- Claim C5: the extension filter agrees with its specification — keep
exactly when the extension list is empty or the lowercase suffix after the
final `.` is listed, dropping dotless names for a non-empty list — and the
spec's concrete examples evaluate as stated. -/
theorem claim_C5 :
    (∀ filename cfg, shouldKeepFile filename cfg = keepSpecB filename cfg.videoExts)
    ∧ shouldKeepFile "x.MKV" ⟨["mp4", "mkv"], []⟩ = true
    ∧ shouldKeepFile "x.srt" ⟨["mp4", "mkv"], []⟩ = false
    ∧ shouldKeepFile "noext" ⟨["mp4", "mkv"], []⟩ = false
    ∧ shouldKeepFile "x.MKV" ⟨[], []⟩ = true
    ∧ shouldKeepFile "x.srt" ⟨[], []⟩ = true
    ∧ shouldKeepFile "noext" ⟨[], []⟩ = true :=
  ⟨shouldKeepFile_eq_spec, by decide, by decide, by decide, by decide,
   by decide, by decide⟩

/-- Counterexample to C4 as stated: the generic variant does not check the
link label, so a row whose label contains `Parent Directory` (a
parent-directory marker per the claim) but whose alt and href markers are
absent is accepted — it appears in the subdirs list. -/
theorem claim_C4_counterexample :
    strContainsB "Parent Directory" "Parent Directory" = true ∧
    parseDirectoryPage nuId unqId
      ⟨none, none, some ⟨[⟨[cellEmpty, cellOfLink "sub/" "Parent Directory"]⟩], none⟩⟩
      "http://x/"
      = ⟨none, [⟨"Parent Directory", "sub/", none⟩], []⟩ :=
  ⟨by decide, by decide⟩

/-- Claim C4 (amended): each variant excludes exactly the parent-directory
markers it checks — generic: icon alt starting `[PARENTDIR]` (uppercased)
or href `..`/`../`; h5ai: href `..` or label containing `Parent Directory`;
DataTables: href `..`/`../` or label containing `Parent Directory`. Rows
matching the respective variant's markers contribute to neither output
list: removing them from the input leaves that variant's output
unchanged. -/
theorem claim_C4_amended (nu : String → String → String) (unq : String → String)
    (base : String) (rows : List Tr) :
    parseGenericRows nu unq base (rows.filter (fun tr => !markerGeneric tr))
      = parseGenericRows nu unq base rows ∧
    parseH5aiRows nu unq base (rows.filter (fun tr => !markerH5ai tr))
      = parseH5aiRows nu unq base rows ∧
    parseDtRows nu unq base (rows.filter (fun tr => !markerDt tr))
      = parseDtRows nu unq base rows := by
  refine ⟨?_, ?_, ?_⟩
  · unfold parseGenericRows
    rw [pageOfRows_filter_none _ markerGeneric
      (fun tr h => genericRowAll_of_marker nu unq base tr h) rows]
  · unfold parseH5aiRows
    rw [pageOfRows_filter_none _ markerH5ai
      (fun tr h => h5aiRowAll_of_marker nu unq base tr h) rows]
  · unfold parseDtRows
    rw [pageOfRows_filter_none _ markerDt
      (fun tr h => dtRowAll_of_marker nu unq base tr h) rows]

theorem freshSpec (f : Tr → Option (RowOut × Option String)) (rows : List Tr) :
    (mkPage (pageOfRows f rows)).dir_modified = pyMaxList (collectedTimes f rows) ∧
    ((mkPage (pageOfRows f rows)).dir_modified = none ↔ collectedTimes f rows = []) ∧
    ∀ m, (mkPage (pageOfRows f rows)).dir_modified = some m →
      m ∈ collectedTimes f rows ∧
      ∀ t ∈ collectedTimes f rows, strLeB t m = true := by
  have h1 : (mkPage (pageOfRows f rows)).dir_modified
      = pyMaxList (collectedTimes f rows) := by
    rw [mkPage_dir_modified, pageOfRows_times]
  refine ⟨h1, ?_, ?_⟩
  · rw [h1]
    exact pyMaxList_none_iff _
  · intro m hm
    rw [h1] at hm
    exact ⟨pyMaxList_mem _ m hm, pyMaxList_ge _ m hm⟩

/-- Claim C3: in every variant the page freshness token is the plain-string
lexicographic maximum of the non-empty modified strings collected from
accepted rows — it equals that list's running maximum, is absent exactly
when the list is empty, and when present is a member of and an upper bound
of the list. -/
theorem claim_C3 (nu : String → String → String) (unq : String → String)
    (base : String) (rows : List Tr) :
    ((parseGenericRows nu unq base rows).dir_modified
        = pyMaxList (collectedTimes (genericRowAll nu unq base) rows) ∧
      ((parseGenericRows nu unq base rows).dir_modified = none ↔
        collectedTimes (genericRowAll nu unq base) rows = []) ∧
      ∀ m, (parseGenericRows nu unq base rows).dir_modified = some m →
        m ∈ collectedTimes (genericRowAll nu unq base) rows ∧
        ∀ t ∈ collectedTimes (genericRowAll nu unq base) rows, strLeB t m = true) ∧
    ((parseH5aiRows nu unq base rows).dir_modified
        = pyMaxList (collectedTimes (h5aiRowAll nu unq base) rows) ∧
      ((parseH5aiRows nu unq base rows).dir_modified = none ↔
        collectedTimes (h5aiRowAll nu unq base) rows = []) ∧
      ∀ m, (parseH5aiRows nu unq base rows).dir_modified = some m →
        m ∈ collectedTimes (h5aiRowAll nu unq base) rows ∧
        ∀ t ∈ collectedTimes (h5aiRowAll nu unq base) rows, strLeB t m = true) ∧
    ((parseDtRows nu unq base rows).dir_modified
        = pyMaxList (collectedTimes (dtRowAll nu unq base) rows) ∧
      ((parseDtRows nu unq base rows).dir_modified = none ↔
        collectedTimes (dtRowAll nu unq base) rows = []) ∧
      ∀ m, (parseDtRows nu unq base rows).dir_modified = some m →
        m ∈ collectedTimes (dtRowAll nu unq base) rows ∧
        ∀ t ∈ collectedTimes (dtRowAll nu unq base) rows, strLeB t m = true) :=
  ⟨freshSpec (genericRowAll nu unq base) rows,
   freshSpec (h5aiRowAll nu unq base) rows,
   freshSpec (dtRowAll nu unq base) rows⟩

/-- Witness for C3 on a concrete generic page with two dated rows: the
token is a collected string and an upper bound of the collected strings. -/
theorem claim_C3_witness :
    "2024-01-02" ∈ collectedTimes (genericRowAll nuId unqId "b")
        [⟨[cellEmpty, cellOfLink "s/" "s", cellOfText "2024-01-02"]⟩,
         ⟨[cellEmpty, cellOfLink "f.mkv" "f", cellOfText "2024-01-01", cellOfText "700M"]⟩] ∧
    ∀ t ∈ collectedTimes (genericRowAll nuId unqId "b")
        [⟨[cellEmpty, cellOfLink "s/" "s", cellOfText "2024-01-02"]⟩,
         ⟨[cellEmpty, cellOfLink "f.mkv" "f", cellOfText "2024-01-01", cellOfText "700M"]⟩],
      strLeB t "2024-01-02" = true :=
  (claim_C3 nuId unqId "b"
    [⟨[cellEmpty, cellOfLink "s/" "s", cellOfText "2024-01-02"]⟩,
     ⟨[cellEmpty, cellOfLink "f.mkv" "f", cellOfText "2024-01-01", cellOfText "700M"]⟩]).1.2.2
    "2024-01-02" (by decide)

/-- Counterexample to C1 as stated: in the DataTables variant an accepted
row whose link href ends with `/` but whose size cell is non-empty is
placed in the files list, not the subdirs list. -/
theorem claim_C1_counterexample :
    strEndsWithB "a/" "/" = true ∧
    parseDirectoryPage nuId unqId
      ⟨none,
       some ⟨[⟨[cellEmpty, cellOfLink "a/" "a", cellEmpty, cellOfText "700M"]⟩], none⟩,
       some ⟨[⟨[cellEmpty, cellOfLink "a/" "a", cellEmpty, cellOfText "700M"]⟩], none⟩⟩
      "http://x/"
      = ⟨none, [], [⟨"a", "a/", none, some "700M"⟩]⟩ :=
  ⟨by decide, by decide⟩

/-- Claim C1 (amended): in the generic and h5ai variants every accepted row
whose link href ends with `/` yields a subdirectory entry, placed in the
subdirs list; in the DataTables variant this holds exactly when the row's
size cell is absent — an accepted row with a `/`-ending href and a
non-empty size cell yields a file entry, placed in the files list. -/
theorem claim_C1_amended :
    (∀ (nu : String → String → String) (unq : String → String) (base : String)
       (rows : List Tr) (tr : Tr) (out : RowOut) (m : Option String),
       tr ∈ rows → genericRowAll nu unq base tr = some (out, m) →
       strEndsWithB (rowHref tr) "/" = true →
       ∃ e, out = RowOut.dir e ∧ e ∈ (parseGenericRows nu unq base rows).subdirs) ∧
    (∀ (nu : String → String → String) (unq : String → String) (base : String)
       (rows : List Tr) (tr : Tr) (out : RowOut) (m : Option String),
       tr ∈ rows → h5aiRowAll nu unq base tr = some (out, m) →
       strEndsWithB (rowHref tr) "/" = true →
       ∃ e, out = RowOut.dir e ∧ e ∈ (parseH5aiRows nu unq base rows).subdirs) ∧
    (∀ (nu : String → String → String) (unq : String → String) (base : String)
       (rows : List Tr) (tr : Tr) (out : RowOut) (m : Option String),
       tr ∈ rows → dtRowAll nu unq base tr = some (out, m) →
       strEndsWithB (rowHref tr) "/" = true →
       (dtRowSize tr = none →
         ∃ e, out = RowOut.dir e ∧ e ∈ (parseDtRows nu unq base rows).subdirs) ∧
       (∀ s, dtRowSize tr = some s → s ≠ "" →
         ∃ e, out = RowOut.file e ∧ e ∈ (parseDtRows nu unq base rows).files)) := by
  refine ⟨?_, ?_, ?_⟩
  · intro nu unq base rows tr out m htr h hs
    obtain ⟨e, he⟩ := genericRowAll_slash nu unq base tr out m h hs
    subst he
    exact ⟨e, rfl, mem_subdirs_of_rowAll _ rows tr e m htr h⟩
  · intro nu unq base rows tr out m htr h hs
    obtain ⟨e, he⟩ := h5aiRowAll_slash nu unq base tr out m h hs
    subst he
    exact ⟨e, rfl, mem_subdirs_of_rowAll _ rows tr e m htr h⟩
  · intro nu unq base rows tr out m htr h hs
    obtain ⟨hdir, hfile⟩ := dtRowAll_slash nu unq base tr out m h hs
    constructor
    · intro hsz
      obtain ⟨e, he⟩ := hdir hsz
      subst he
      exact ⟨e, rfl, mem_subdirs_of_rowAll _ rows tr e m htr h⟩
    · intro s hsz hne
      obtain ⟨e, he⟩ := hfile s hsz hne
      subst he
      exact ⟨e, rfl, mem_files_of_rowAll _ rows tr e m htr h⟩

/-- Witness for C1 (amended) on concrete rows of each variant, including
both DataTables cases. -/
theorem claim_C1_witness :
    (∃ e, RowOut.dir (⟨"s", "s/", none⟩ : ParsedDirEntry) = RowOut.dir e ∧
      e ∈ (parseGenericRows nuId unqId "b"
        [⟨[cellEmpty, cellOfLink "s/" "s"]⟩]).subdirs) ∧
    (∃ e, RowOut.dir (⟨"h", "h/", none⟩ : ParsedDirEntry) = RowOut.dir e ∧
      e ∈ (parseH5aiRows nuId unqId "b"
        [⟨[cellEmpty, cellOfLink "h/" "h", cellEmpty, cellEmpty]⟩]).subdirs) ∧
    (∃ e, RowOut.dir (⟨"d", "d/", none⟩ : ParsedDirEntry) = RowOut.dir e ∧
      e ∈ (parseDtRows nuId unqId "b"
        [⟨[cellEmpty, cellOfLink "d/" "d"]⟩]).subdirs) ∧
    (∃ e, RowOut.file (⟨"a", "a/", none, some "700M"⟩ : ParsedFileEntry) = RowOut.file e ∧
      e ∈ (parseDtRows nuId unqId "b"
        [⟨[cellEmpty, cellOfLink "a/" "a", cellEmpty, cellOfText "700M"]⟩]).files) :=
  ⟨claim_C1_amended.1 nuId unqId "b" [⟨[cellEmpty, cellOfLink "s/" "s"]⟩]
      ⟨[cellEmpty, cellOfLink "s/" "s"]⟩ _ none (by decide) rfl (by decide),
   claim_C1_amended.2.1 nuId unqId "b"
      [⟨[cellEmpty, cellOfLink "h/" "h", cellEmpty, cellEmpty]⟩]
      ⟨[cellEmpty, cellOfLink "h/" "h", cellEmpty, cellEmpty]⟩ _ none
      (by decide) rfl (by decide),
   (claim_C1_amended.2.2 nuId unqId "b" [⟨[cellEmpty, cellOfLink "d/" "d"]⟩]
      ⟨[cellEmpty, cellOfLink "d/" "d"]⟩ _ none (by decide) rfl (by decide)).1
      (by decide),
   (claim_C1_amended.2.2 nuId unqId "b"
      [⟨[cellEmpty, cellOfLink "a/" "a", cellEmpty, cellOfText "700M"]⟩]
      ⟨[cellEmpty, cellOfLink "a/" "a", cellEmpty, cellOfText "700M"]⟩ _ none
      (by decide) rfl (by decide)).2 "700M" (by decide) (by decide)⟩

/-- Claim C2: in incremental mode, when the dequeued directory has a stored
row whose freshness token is present and equal to the freshly parsed
token, the step only dequeues the item and records the fetch: no Directory
upsert, no MediaFile delete or insert, and no subdirectory enqueued. -/
theorem claim_C2 (nu : String → String → String) (unq : String → String)
    (fetch : String → Option Soup) (rootUrl : String) (cfg : CrawlConfig)
    (st : CrawlState) (dirUrl : String) (parentUrl : Option String)
    (rest : List (String × Option String)) (soup : Soup) (tok : String)
    (hq : st.queue = (dirUrl, parentUrl) :: rest)
    (hb : isBlockedDir (pathFromRoot rootUrl dirUrl) cfg = false)
    (hf : fetch dirUrl = some soup)
    (hstored : lookupDirModified st.dirs dirUrl = some (some tok))
    (hparsed : (parseDirectoryPage nu unq soup dirUrl).dir_modified = some tok) :
    crawlStep nu unq fetch rootUrl cfg true st =
      { st with queue := rest, trace := st.trace ++ [Ev.fetchAttempt dirUrl] } := by
  apply crawlStep_skip_of_stored_eq nu unq fetch rootUrl cfg st dirUrl parentUrl
    rest soup hq hb hf
  rw [hstored, hparsed]

/-- Witness for C2: a stored token `2024-01-01` matching the re-parsed page
token skips the directory, leaving only the dequeue and the fetch record. -/
theorem claim_C2_witness :
    crawlStep nuId unqId
      (fun _ => some ⟨none, none,
        some ⟨[⟨[cellEmpty, cellOfLink "s/" "s", cellOfText "2024-01-01"]⟩], none⟩⟩)
      "http://x/" ⟨[], []⟩ true
      ⟨[("http://x/", none)], [("http://x/", some "2024-01-01")], [], 0⟩ =
      ⟨[], [("http://x/", some "2024-01-01")], [Ev.fetchAttempt "http://x/"], 0⟩ :=
  claim_C2 nuId unqId
    (fun _ => some ⟨none, none,
      some ⟨[⟨[cellEmpty, cellOfLink "s/" "s", cellOfText "2024-01-01"]⟩], none⟩⟩)
    "http://x/" ⟨[], []⟩
    ⟨[("http://x/", none)], [("http://x/", some "2024-01-01")], [], 0⟩
    "http://x/" none [] _ "2024-01-01" rfl (by decide) rfl (by decide) (by decide)

/-- Claim C10: the incremental skip comparison is plain equality including
the absent case — a stored row whose token is absent together with a
freshly parsed page with no token skips the directory: no Directory
upsert, no MediaFile writes, no subdirectory enqueued. -/
theorem claim_C10 (nu : String → String → String) (unq : String → String)
    (fetch : String → Option Soup) (rootUrl : String) (cfg : CrawlConfig)
    (st : CrawlState) (dirUrl : String) (parentUrl : Option String)
    (rest : List (String × Option String)) (soup : Soup)
    (hq : st.queue = (dirUrl, parentUrl) :: rest)
    (hb : isBlockedDir (pathFromRoot rootUrl dirUrl) cfg = false)
    (hf : fetch dirUrl = some soup)
    (hstored : lookupDirModified st.dirs dirUrl = some none)
    (hparsed : (parseDirectoryPage nu unq soup dirUrl).dir_modified = none) :
    crawlStep nu unq fetch rootUrl cfg true st =
      { st with queue := rest, trace := st.trace ++ [Ev.fetchAttempt dirUrl] } := by
  apply crawlStep_skip_of_stored_eq nu unq fetch rootUrl cfg st dirUrl parentUrl
    rest soup hq hb hf
  rw [hstored, hparsed]

/-- Witness for C10: a stored row with absent token and a tokenless page
skip the directory as unchanged. -/
theorem claim_C10_witness :
    crawlStep nuId unqId (fun _ => some ⟨none, none, none⟩)
      "http://x/" ⟨[], []⟩ true
      ⟨[("http://x/", none)], [("http://x/", none)], [], 0⟩ =
      ⟨[], [("http://x/", none)], [Ev.fetchAttempt "http://x/"], 0⟩ :=
  claim_C10 nuId unqId (fun _ => some ⟨none, none, none⟩) "http://x/" ⟨[], []⟩
    ⟨[("http://x/", none)], [("http://x/", none)], [], 0⟩
    "http://x/" none [] _ rfl (by decide) rfl (by decide) (by decide)

/-- Claim C6: a dequeued directory whose root-relative path has a blocked
final segment is discarded before fetching — the step only dequeues it,
with no fetch attempt, no store operation and no enqueued child — and over
any whole (fuel-bounded) crawl loop no blocked directory URL is ever
fetched. -/
theorem claim_C6 :
    (∀ (nu : String → String → String) (unq : String → String)
       (fetch : String → Option Soup) (rootUrl : String) (cfg : CrawlConfig)
       (incremental : Bool) (st : CrawlState) (dirUrl : String)
       (parentUrl : Option String) (rest : List (String × Option String)),
       st.queue = (dirUrl, parentUrl) :: rest →
       isBlockedDir (pathFromRoot rootUrl dirUrl) cfg = true →
       crawlStep nu unq fetch rootUrl cfg incremental st = { st with queue := rest }) ∧
    (∀ (nu : String → String → String) (unq : String → String)
       (fetch : String → Option Soup) (rootUrl : String) (cfg : CrawlConfig)
       (incremental : Bool) (fuel : Nat) (st : CrawlState) (u : String),
       isBlockedDir (pathFromRoot rootUrl u) cfg = true →
       Ev.fetchAttempt u ∉ st.trace →
       Ev.fetchAttempt u ∉
         (crawlLoop nu unq fetch rootUrl cfg incremental fuel st).trace) := by
  constructor
  · intro nu unq fetch rootUrl cfg incremental st dirUrl parentUrl rest hq hb
    exact crawlStep_blocked nu unq fetch rootUrl cfg incremental st dirUrl
      parentUrl rest hq hb
  · intro nu unq fetch rootUrl cfg incremental fuel st u hu hnot hmem
    obtain ⟨t, ht, hp⟩ :=
      crawlLoop_trace_append nu unq fetch rootUrl cfg incremental fuel st
    rw [ht] at hmem
    rcases List.mem_append.mp hmem with h | h
    · exact hnot h
    · exact (hp _ h).2.2 u hu rfl

/-- Witness for C6: with `blockedDirs = ["extras"]` the queued directory
`http://x/Extras/` is dropped without a fetch, and a one-step crawl loop
never fetches it. -/
theorem claim_C6_witness :
    crawlStep nuId unqId (fun _ => none) "http://x/" ⟨[], ["extras"]⟩ false
      ⟨[("http://x/Extras/", none)], [], [], 0⟩ = ⟨[], [], [], 0⟩ ∧
    Ev.fetchAttempt "http://x/Extras/" ∉
      (crawlLoop nuId unqId (fun _ => none) "http://x/" ⟨[], ["extras"]⟩ false 1
        ⟨[("http://x/Extras/", none)], [], [], 0⟩).trace :=
  ⟨claim_C6.1 nuId unqId (fun _ => none) "http://x/" ⟨[], ["extras"]⟩ false
      ⟨[("http://x/Extras/", none)], [], [], 0⟩ "http://x/Extras/" none [] rfl
      (by decide),
   claim_C6.2 nuId unqId (fun _ => none) "http://x/" ⟨[], ["extras"]⟩ false 1
      ⟨[("http://x/Extras/", none)], [], [], 0⟩ "http://x/Extras/" (by decide)
      (by simp)⟩

/-- Claim C7: a full (non-incremental) crawl's operation trace starts with
the bulk deletion of the root's media rows and directory rows (and the
commit of that deletion) before anything else; an incremental crawl's
trace never contains either bulk deletion. -/
theorem claim_C7 (nu : String → String → String) (unq : String → String)
    (fetch : String → Option Soup) (fuel : Nat) (rootUrl : String)
    (cfg : CrawlConfig) (dirs0 : List (String × Option String)) :
    (∃ t, (crawlRoot nu unq fetch fuel rootUrl cfg false dirs0).trace
        = Ev.deleteMediaRoot rootUrl :: Ev.deleteDirsRoot rootUrl :: Ev.commit :: t) ∧
    (∀ r, Ev.deleteMediaRoot r ∉
        (crawlRoot nu unq fetch fuel rootUrl cfg true dirs0).trace ∧
      Ev.deleteDirsRoot r ∉
        (crawlRoot nu unq fetch fuel rootUrl cfg true dirs0).trace) := by
  constructor
  · obtain ⟨t, ht, _⟩ := crawlLoop_trace_append nu unq fetch rootUrl cfg false fuel
      (initialState rootUrl false dirs0)
    refine ⟨t ++ [Ev.commit], ?_⟩
    simp only [crawlRoot]
    rw [ht]
    simp [initialState]
  · intro r
    obtain ⟨t, ht, hp⟩ := crawlLoop_trace_append nu unq fetch rootUrl cfg true fuel
      (initialState rootUrl true dirs0)
    have htr : (crawlRoot nu unq fetch fuel rootUrl cfg true dirs0).trace
        = t ++ [Ev.commit] := by
      simp only [crawlRoot]
      rw [ht]
      simp [initialState]
    constructor <;> intro hmem <;> rw [htr] at hmem <;>
      rcases List.mem_append.mp hmem with h | h
    · exact (hp _ h).1 r rfl
    · simp at h
    · exact (hp _ h).2.1 r rfl
    · simp at h

/-- Witness for C7 at a concrete zero-fuel crawl of a concrete root. -/
theorem claim_C7_witness :
    (∃ t, (crawlRoot nuId unqId (fun _ => none) 0 "http://x/" ⟨[], []⟩ false []).trace
        = Ev.deleteMediaRoot "http://x/" :: Ev.deleteDirsRoot "http://x/"
          :: Ev.commit :: t) ∧
    Ev.deleteMediaRoot "http://q/" ∉
      (crawlRoot nuId unqId (fun _ => none) 0 "http://x/" ⟨[], []⟩ true []).trace :=
  ⟨(claim_C7 nuId unqId (fun _ => none) 0 "http://x/" ⟨[], []⟩ []).1,
   ((claim_C7 nuId unqId (fun _ => none) 0 "http://x/" ⟨[], []⟩ []).2 "http://q/").1⟩
